import Mathlib

/-!
Verification of the batched, paid, verified chunk-upload pipeline of
`sn_cli/src/subcommands/files/mod.rs`.

The scheduler (`upload_files`, `handle_chunk_batch`, `progress_uploading_chunks`,
`upload_chunks_in_parallel`, `upload_chunk`) is embedded as a deterministic state
machine.  External collaborators are oracles packaged in `Env`:

* `Env.pay n` is the result of the n-th `pay_for_chunks` call of the run
  (the Payment Gateway / wallet / network adapter);
* `Env.task n` is the eventual outcome of the n-th spawned Upload Worker task
  (a worker either returns `Ok(xorname)`, returns `Err(..)`, or its join
  handle fails, i.e. the task panicked / was cancelled).

Chunk addresses (`XorName`) are opaque, modelled as `Nat`.  `NanoTokens` is a
`u64`; `checked_add` is modelled by an explicit `< 2^64` bound on the sum.

`FuturesUnordered.next()` yields whichever task finishes first; the embedding
determinizes this to FIFO order.  All properties proved below are insensitive
to the drain order: the in-flight window length evolution and the set of
completed chunks after a full drain do not depend on which ready task is
yielded first.

The `ChunkManager` (file `chunk_manager.rs`, not part of the sources under
review) is modelled from the spec, see `pendingOf`.
-/

namespace SafeFiles

/-- Eventual outcome of one spawned Upload Worker task, as seen by the
scheduler when it drains the task's join handle. -/
inductive TaskOutcome where
  | success
  | failure
  | panicked
  deriving DecidableEq, Repr

/-- Result of one `pay_for_chunks` call, classified the way
`upload_files` downcasts it: `NotEnoughBalance`, `CouldNotVerifyTransfer`,
any other client error, or success carrying
`((storage_cost, royalties_fees, new_balance), skipped_chunks)`. -/
inductive PayRes where
  | notEnoughBalance
  | couldNotVerifyTransfer
  | otherError
  | ok (storage_cost royalties_fees new_balance : Nat) (skipped : List Nat)
  deriving DecidableEq, Repr

/-- Oracles for the external collaborators of the scheduler. -/
structure Env where
  pay : Nat → PayRes
  task : Nat → TaskOutcome

/-- Errors `handle_chunk_batch` can return: the three classes of
`pay_for_chunks` error, the two `checked_add` failures, and a failed join
(`result?` in `progress_uploading_chunks`). -/
inductive BatchErr where
  | payNotEnoughBalance
  | payCouldNotVerify
  | payOther
  | costOverflow
  | royaltiesOverflow
  | joinPanic
  deriving DecidableEq, Repr

/-- Fatal errors of the whole upload run.  In the initial pass over batches,
`upload_files` downcasts the batch error to `ClientError`: `NotEnoughBalance`
and other client errors get dedicated `bail!`s, a non-client error (overflow
report, join error) is propagated by the `?` on the downcast itself, and only
`CouldNotVerifyTransfer` is non-fatal.  Errors of the drain after the initial
pass and of the retry passes are propagated raw by `?`. -/
inductive RunErr where
  | tooManySequentialPaymentFails
  | notEnoughBalance
  | otherClientError
  | nonClientError
  | afterPassDrain (e : BatchErr)
  | retryPass (e : BatchErr)
  deriving DecidableEq, Repr

/-- The mutable per-run state bundled in `UploadParams`, together with the
chunk-manager completion set and observation traces:
`payCalls` records the address list of every `pay_for_chunks` invocation,
`dispatched` records every spawned Upload Worker's address,
`maxInflight` records the largest size `uploading_chunks` ever reached,
`retryPasses` counts executed retry passes. -/
structure UpState where
  completed : List Nat
  inflight : List (Nat × TaskOutcome)
  seqFails : Nat
  totalCost : Nat
  totalRoyalties : Nat
  finalBalance : Nat
  totalExistingChunks : Nat
  payCalls : List (List Nat)
  dispatched : List Nat
  maxInflight : Nat
  retryPasses : Nat
  deriving DecidableEq, Repr

/-- State at the start of a run: nothing completed, nothing in flight,
`sequential_payment_fails = 0`, zero totals, wallet balance as read. -/
def initState (balance : Nat) : UpState :=
  { completed := []
    inflight := []
    seqFails := 0
    totalCost := 0
    totalRoyalties := 0
    finalBalance := balance
    totalExistingChunks := 0
    payCalls := []
    dispatched := []
    maxInflight := 0
    retryPasses := 0 }

/-- Modelled from the spec: the `ChunkManager`'s `get_chunks` (file
`chunk_manager.rs` is not among the reviewed sources).  Per the spec, "the set
of Pending chunks equals the set known to the Chunk Manager minus Completed";
`chunks` is the set known to the manager for this run, in its iteration
order. -/
def pendingOf (chunks : List Nat) (s : UpState) : List Nat :=
  chunks.filter (fun c => !(s.completed.contains c))

/-- The `while drain_all || uploading_chunks.len() >= batch_size` loop of
`progress_uploading_chunks`, acting on the completion set and the in-flight
queue.  Each iteration awaits the next finished task: `Ok(xorname)` is marked
completed, `Err` is logged and the chunk stays pending, a failed join is
propagated (`result?`).  `next()` returning `None` breaks the loop. -/
def drainLoop (bs : Nat) (drain_all : Bool) :
    List Nat → List (Nat × TaskOutcome) →
      List Nat × List (Nat × TaskOutcome) × Option BatchErr
  | completed, [] => (completed, [], none)
  | completed, (addr, outcome) :: rest =>
    if drain_all = true ∨ bs ≤ rest.length + 1 then
      match outcome with
      | .success => drainLoop bs drain_all (completed ++ [addr]) rest
      | .failure => drainLoop bs drain_all completed rest
      | .panicked => (completed, rest, some .joinPanic)
    else (completed, (addr, outcome) :: rest, none)

/-- `progress_uploading_chunks`: drain the in-flight window (fully when
`drain_all`, otherwise down to strictly below `batch_size`). -/
def progress_uploading_chunks (bs : Nat) (drain_all : Bool) (s : UpState) :
    UpState × Option BatchErr :=
  let r := drainLoop bs drain_all s.completed s.inflight
  ({ s with completed := r.1, inflight := r.2.1 }, r.2.2)

/-- The `for task in upload_tasks` loop at the end of `handle_chunk_batch`:
before every push, drain until the window is below `batch_size`. -/
def pushTasks (bs : Nat) : UpState → List (Nat × TaskOutcome) →
    UpState × Option BatchErr
  | s, [] => (s, none)
  | s, t :: rest =>
    let r := progress_uploading_chunks bs false s
    match r.2 with
    | some e => (r.1, some e)
    | none =>
      pushTasks bs
        { r.1 with
          inflight := r.1.inflight ++ [t]
          maxInflight := max r.1.maxInflight (r.1.inflight.length + 1) } rest

/-- `handle_chunk_batch`: pre-admission drain, one `pay_for_chunks` call for
the batch, totals update by checked addition, skipped chunks marked completed
without upload, then one spawned worker per non-skipped chunk, pushed into the
window with a drain before every push.  `tokio::spawn` starts every task of
the batch before the push loop runs, so all dispatches are recorded at spawn
time. -/
def handle_chunk_batch (env : Env) (bs : Nat) (s : UpState) (batch : List Nat) :
    UpState × Option BatchErr :=
  let r := progress_uploading_chunks bs false s
  match r.2 with
  | some e => (r.1, some e)
  | none =>
    let s1 := r.1
    let payIdx := s1.payCalls.length
    let s2 := { s1 with payCalls := s1.payCalls ++ [batch] }
    match env.pay payIdx with
    | .notEnoughBalance => (s2, some .payNotEnoughBalance)
    | .couldNotVerifyTransfer => (s2, some .payCouldNotVerify)
    | .otherError => (s2, some .payOther)
    | .ok storage_cost royalties_fees new_balance skipped =>
      let s3 := { s2 with finalBalance := new_balance }
      if s3.totalCost + storage_cost < 2 ^ 64 then
        let s4 := { s3 with totalCost := s3.totalCost + storage_cost }
        if s4.totalRoyalties + royalties_fees < 2 ^ 64 then
          let s5 := { s4 with totalRoyalties := s4.totalRoyalties + royalties_fees }
          let chunksToUpload := batch.filter (fun c => !(skipped.contains c))
          let s6 := { s5 with
            totalExistingChunks := s5.totalExistingChunks + skipped.length
            completed := s5.completed ++ skipped }
          let base := s6.dispatched.length
          let tasks := chunksToUpload.enum.map (fun p => (p.2, env.task (base + p.1)))
          let s7 := { s6 with dispatched := s6.dispatched ++ chunksToUpload }
          pushTasks bs s7 tasks
        else (s4, some .royaltiesOverflow)
      else (s3, some .costOverflow)

/-- Fuelled worker for `chunksOf`; the fuel is the list length, which
suffices because each step consumes at least one element when `n ≠ 0`. -/
def chunksOfGo (n : Nat) : Nat → List Nat → List (List Nat)
  | _, [] => []
  | 0, _ :: _ => []
  | fuel + 1, x :: xs => (x :: xs).take n :: chunksOfGo n fuel ((x :: xs).drop n)

/-- `slice::chunks(n)`: partition into consecutive batches of size `n`, the
last possibly short.  (Rust panics on `n = 0`; the model returns no batches,
and every claim about batching assumes `batch_size ≥ 1`.) -/
def chunksOf (n : Nat) (l : List Nat) : List (List Nat) :=
  if n = 0 then [] else chunksOfGo n l.length l

/-- The `for chunks_batch in chunks_batches` loop of `upload_files`: abort
once `sequential_payment_fails` has reached `max_sequential_payment_fails`,
otherwise handle the batch, treating `CouldNotVerifyTransfer` as soft
(increment the counter, continue) and every other batch error as fatal. -/
def initialPass (env : Env) (bs maxSeqFails : Nat) :
    UpState → List (List Nat) → UpState × Option RunErr
  | s, [] => (s, none)
  | s, b :: rest =>
    if maxSeqFails ≤ s.seqFails then (s, some .tooManySequentialPaymentFails)
    else
      let r := handle_chunk_batch env bs s b
      match r.2 with
      | none => initialPass env bs maxSeqFails r.1 rest
      | some .payCouldNotVerify =>
        initialPass env bs maxSeqFails { r.1 with seqFails := r.1.seqFails + 1 } rest
      | some .payNotEnoughBalance => (r.1, some .notEnoughBalance)
      | some .payOther => (r.1, some .otherClientError)
      | some .costOverflow => (r.1, some .nonClientError)
      | some .royaltiesOverflow => (r.1, some .nonClientError)
      | some .joinPanic => (r.1, some .nonClientError)

/-- The `for chunks_batch in batches` loop inside the retry `while`:
`handle_chunk_batch(&mut upload_params, chunks_batch).await?` propagates every
batch error, including `CouldNotVerifyTransfer`. -/
def retryPassBatches (env : Env) (bs : Nat) :
    UpState → List (List Nat) → UpState × Option BatchErr
  | s, [] => (s, none)
  | s, b :: rest =>
    let r := handle_chunk_batch env bs s b
    match r.2 with
    | some e => (r.1, some e)
    | none => retryPassBatches env bs r.1 rest

/-- The retry `while !failed_chunks.is_empty() && retry_count < max_retries`
loop.  `remaining = max_retries - retry_count` decreases by one per pass, so
it is the structural fuel. -/
def retryLoop (env : Env) (chunks : List Nat) (bs : Nat) :
    UpState → Nat → UpState × Option RunErr
  | s, 0 => (s, none)
  | s, remaining + 1 =>
    let failed := pendingOf chunks s
    if failed = [] then (s, none)
    else
      let s0 := { s with retryPasses := s.retryPasses + 1 }
      let r := retryPassBatches env bs s0 (chunksOf bs failed)
      match r.2 with
      | some e => (r.1, some (.retryPass e))
      | none =>
        let r2 := progress_uploading_chunks bs true r.1
        match r2.2 with
        | some e => (r2.1, some (.retryPass e))
        | none => retryLoop env chunks bs r2.1 remaining

/-- The scheduler part of `upload_files`, from the `chunks_batches` loop to
the end of the retry loop: initial pass over the batches with
`max_sequential_payment_fails = 3`, full drain, then retry passes. -/
def run_scheduler (env : Env) (chunks : List Nat) (bs maxRetries : Nat)
    (s0 : UpState) : UpState × Option RunErr :=
  let r := initialPass env bs 3 s0 (chunksOf bs chunks)
  match r.2 with
  | some e => (r.1, some e)
  | none =>
    let r2 := progress_uploading_chunks bs true r.1
    match r2.2 with
    | some e => (r2.1, some (.afterPassDrain e))
    | none => retryLoop env chunks bs r2.1 maxRetries

/-- Result of `tokio::fs::read(path)` inside `upload_chunk`. -/
inductive ReadFileResult where
  | ok (bytes : List Nat)
  | error
  deriving DecidableEq, Repr

/-- Result of `get_local_payment_and_upload_chunk`. -/
inductive PutChunkResult where
  | ok
  | err
  deriving DecidableEq, Repr

/-- `upload_chunk`: read the chunk bytes from disk; if the read fails, log a
warning and return `Ok(xorname)`; otherwise submit the chunk and propagate the
network client's result. -/
def upload_chunk (readRes : ReadFileResult) (putRes : PutChunkResult)
    (xorname : Nat) : Except Unit Nat :=
  match readRes with
  | .error => Except.ok xorname
  | .ok _ =>
    match putRes with
    | .ok => Except.ok xorname
    | .err => Except.error ()

/-- Outcome of a whole `upload_files` invocation, up to choosing which chunk
set enters the scheduler. -/
inductive UploadOutcome where
  | walletEmpty
  | alreadyVerified
  | ran (chunksToUpload : List Nat)
  deriving DecidableEq, Repr

/-- `upload_files` around the scheduler: bail on an empty wallet; if the
chunk manager reports no pending chunks, run the Verifier on the previously
put chunks, mark the non-failed ones completed, and return early when nothing
failed; otherwise feed exactly the failed subset (resp. the pending set) to
the scheduler.  `pendingChunks` is the manager's pending set after
`chunk_path`, `priorChunks` is `already_put_chunks`, and `failedFromVerifier`
is the subset `verify_uploaded_chunks` reports as absent (the Verifier is an
external collaborator, so its answer is an oracle input).  The `ChunkManager`
bookkeeping is modelled from the spec as in `pendingOf`. -/
def upload_files (env : Env) (balance : Nat)
    (pendingChunks priorChunks failedFromVerifier : List Nat)
    (bs maxRetries : Nat) : UploadOutcome × UpState × Option RunErr :=
  if balance = 0 then (.walletEmpty, initState balance, none)
  else if pendingChunks = [] then
    if failedFromVerifier = [] then (.alreadyVerified, initState balance, none)
    else
      let s0 := { initState balance with
        completed := priorChunks.filter (fun c => !(failedFromVerifier.contains c)) }
      let r := run_scheduler env failedFromVerifier bs maxRetries s0
      (.ran failedFromVerifier, r.1, r.2)
  else
    let r := run_scheduler env pendingChunks bs maxRetries (initState balance)
    (.ran pendingChunks, r.1, r.2)

/-! ## Lemmas about `chunksOf` -/

theorem chunksOfGo_nil (n : Nat) (f : Nat) : chunksOfGo n f [] = [] := by
  cases f <;> rfl

theorem chunksOfGo_congr (n : Nat) (hn : n ≠ 0) :
    ∀ f1 f2 l, l.length ≤ f1 → l.length ≤ f2 →
      chunksOfGo n f1 l = chunksOfGo n f2 l := by
  intro f1
  induction f1 with
  | zero =>
    intro f2 l h1 _
    rw [List.length_eq_zero.mp (Nat.le_zero.mp h1)]
    rw [chunksOfGo_nil, chunksOfGo_nil]
  | succ g ih =>
    intro f2 l h1 h2
    match l with
    | [] => rw [chunksOfGo_nil, chunksOfGo_nil]
    | x :: xs =>
      match f2 with
      | 0 => simp at h2
      | g2 + 1 =>
        show (x :: xs).take n :: chunksOfGo n g ((x :: xs).drop n) =
          (x :: xs).take n :: chunksOfGo n g2 ((x :: xs).drop n)
        congr 1
        apply ih
        · simp only [List.length_drop, List.length_cons] at *
          omega
        · simp only [List.length_drop, List.length_cons] at *
          omega

theorem chunksOf_nil (n : Nat) : chunksOf n [] = [] := by
  unfold chunksOf
  split
  · rfl
  · rfl

theorem chunksOf_cons (n : Nat) (hn : n ≠ 0) (x : Nat) (xs : List Nat) :
    chunksOf n (x :: xs) = (x :: xs).take n :: chunksOf n ((x :: xs).drop n) := by
  unfold chunksOf
  rw [if_neg hn, if_neg hn]
  show (x :: xs).take n :: chunksOfGo n xs.length ((x :: xs).drop n) = _
  congr 1
  apply chunksOfGo_congr n hn
  · simp only [List.length_drop, List.length_cons]
    omega
  · exact le_refl _

theorem chunksOf_flatten (n : Nat) (hn : n ≠ 0) (l : List Nat) :
    (chunksOf n l).flatten = l := by
  match l with
  | [] => rw [chunksOf_nil]; rfl
  | x :: xs =>
    rw [chunksOf_cons n hn, List.flatten_cons,
      chunksOf_flatten n hn ((x :: xs).drop n)]
    exact List.take_append_drop n (x :: xs)
termination_by l.length
decreasing_by
  simp only [List.length_drop, List.length_cons]
  omega

theorem countP_mem_eq_zero (a : Nat) (LL : List (List Nat))
    (h : a ∉ LL.flatten) : LL.countP (fun b => decide (a ∈ b)) = 0 := by
  rw [List.countP_eq_zero]
  intro b hb
  simp only [decide_eq_true_eq]
  intro hab
  exact h (List.mem_flatten.mpr ⟨b, hb, hab⟩)

theorem countP_mem_le_one (a : Nat) (LL : List (List Nat))
    (h : LL.flatten.Nodup) : LL.countP (fun b => decide (a ∈ b)) ≤ 1 := by
  induction LL with
  | nil => simp
  | cons b rest ih =>
    rw [List.flatten_cons, List.nodup_append] at h
    obtain ⟨hb, hrest, hdisj⟩ := h
    rw [List.countP_cons]
    by_cases hab : a ∈ b
    · rw [countP_mem_eq_zero a rest (fun hmem => hdisj hab hmem)]
      split <;> simp
    · simp [hab]
      exact ih hrest

/-! ## The manifest reader of `download_files`

Lines of `<root>/uploaded_files` are modelled as `List Char`.  An address is
the byte list produced by `hex::decode`; `XorName` requires exactly 32 bytes.
The `BTreeSet<(XorName, String)>` is modelled as a sorted duplicate-free list
under the lexicographic tuple order (byte-wise on the address, byte-wise on
the name, as in Rust).  Downloading each entry is an external network effect;
the reader's result is the entry set in iteration order. -/

/-- Value of one hex digit, upper or lower case, as accepted by
`hex::decode`. -/
def hexVal (c : Char) : Option Nat :=
  if '0' ≤ c ∧ c ≤ '9' then some (c.toNat - '0'.toNat)
  else if 'a' ≤ c ∧ c ≤ 'f' then some (c.toNat - 'a'.toNat + 10)
  else if 'A' ≤ c ∧ c ≤ 'F' then some (c.toNat - 'A'.toNat + 10)
  else none

/-- `hex::decode`: two digits per byte; fails on an odd number of characters
or on any non-hex character. -/
def hexDecode : List Char → Option (List Nat)
  | [] => some []
  | [_] => none
  | c1 :: c2 :: rest =>
    match hexVal c1, hexVal c2, hexDecode rest with
    | some hi, some lo, some bs => some ((16 * hi + lo) :: bs)
    | _, _, _ => none

/-- `str::split(": ")`: split on every occurrence of the two-character
separator, scanning left to right. -/
def splitColonSpace : List Char → List (List Char)
  | [] => [[]]
  | ':' :: ' ' :: rest => [] :: splitColonSpace rest
  | c :: rest =>
    match splitColonSpace rest with
    | [] => [[c]]
    | p :: ps => (c :: p) :: ps

/-- Byte-wise lexicographic order on address byte lists (the `Ord` of
`XorName`, an `[u8; 32]`). -/
def bytesLt : List Nat → List Nat → Bool
  | [], [] => false
  | [], _ :: _ => true
  | _ :: _, [] => false
  | a :: as, b :: bs => if a < b then true else if b < a then false else bytesLt as bs

/-- Byte-wise order on names (the `Ord` of `String`; the counterexamples use
ASCII names, where code-point order and UTF-8 byte order agree). -/
def nameLt : List Char → List Char → Bool
  | [], [] => false
  | [], _ :: _ => true
  | _ :: _, [] => false
  | a :: as, b :: bs =>
    if a.toNat < b.toNat then true
    else if b.toNat < a.toNat then false
    else nameLt as bs

/-- Lexicographic order of the tuple `(XorName, String)`. -/
def entryLt (x y : List Nat × List Char) : Bool :=
  if bytesLt x.1 y.1 then true
  else if bytesLt y.1 x.1 then false
  else nameLt x.2 y.2

/-- `BTreeSet::insert`: already-present entries are not duplicated, new
entries keep the set sorted. -/
def insertEntry (x : List Nat × List Char) :
    List (List Nat × List Char) → List (List Nat × List Char)
  | [] => [x]
  | y :: ys =>
    if x = y then y :: ys
    else if entryLt x y then x :: y :: ys
    else y :: insertEntry x ys

/-- Outcome of the manifest-reading loop of `download_files`: the entry set,
or an early `Err` return (the `?` on `hex::decode`), or a panic (the
`expect` on the `[u8; 32]` conversion). -/
inductive ReaderResult where
  | ok (entries : List (List Nat × List Char))
  | hexError
  | panicked
  deriving DecidableEq, Repr

/-- The `for line in reader.lines()` loop of `download_files`: split each
line on `": "`; with exactly two parts, hex-decode the address (decode
failure returns from the function with `Err`), convert to `[u8; 32]` (wrong
length panics via `expect`), and insert the entry; otherwise print
"Skipping malformed line" and continue. -/
def download_files_go :
    List (List Nat × List Char) → List (List Char) → ReaderResult
  | acc, [] => .ok acc
  | acc, line :: rest =>
    match splitColonSpace line with
    | [xorNameHex, fileName] =>
      match hexDecode xorNameHex with
      | none => .hexError
      | some bytes =>
        if bytes.length = 32 then
          download_files_go (insertEntry (bytes, fileName) acc) rest
        else .panicked
    | _ => download_files_go acc rest

/-- `download_files`, up to the manifest read: the entries that the
subsequent loop downloads, in `BTreeSet` iteration order. -/
def download_files (lines : List (List Char)) : ReaderResult :=
  download_files_go [] lines

/-- The successful parse of a single manifest line: exactly two parts around
`": "` and an address of exactly 32 hex-decoded bytes. -/
def parseLine (line : List Char) : Option (List Nat × List Char) :=
  match splitColonSpace line with
  | [xorNameHex, fileName] =>
    match hexDecode xorNameHex with
    | some bytes => if bytes.length = 32 then some (bytes, fileName) else none
    | none => none
  | _ => none

/-! ## Lemmas about the drain loop -/

theorem drainLoop_length_le (bs : Nat) (d : Bool) (c : List Nat)
    (l : List (Nat × TaskOutcome)) :
    (drainLoop bs d c l).2.1.length ≤ l.length := by
  induction l generalizing c with
  | nil => simp [drainLoop]
  | cons t rest ih =>
    obtain ⟨addr, outcome⟩ := t
    simp only [drainLoop]
    split
    · cases outcome
      · exact le_trans (ih _) (Nat.le_succ _)
      · exact le_trans (ih _) (Nat.le_succ _)
      · exact Nat.le_succ _
    · simp

theorem drainLoop_below_of_ok (bs : Nat) (c : List Nat)
    (l : List (Nat × TaskOutcome))
    (h : (drainLoop bs false c l).2.2 = none) :
    (drainLoop bs false c l).2.1.length < bs ∨ (drainLoop bs false c l).2.1 = [] := by
  induction l generalizing c with
  | nil => right; simp [drainLoop]
  | cons t rest ih =>
    obtain ⟨addr, outcome⟩ := t
    by_cases hcond : (false : Bool) = true ∨ bs ≤ rest.length + 1
    · cases outcome <;> simp only [drainLoop, if_pos hcond] at h ⊢
      · exact ih _ h
      · exact ih _ h
      · simp at h
    · simp only [drainLoop, if_neg hcond] at h ⊢
      left
      rcases not_or.mp hcond with ⟨-, h2⟩
      simp only [List.length_cons]
      omega

theorem drainLoop_completed_mono (bs : Nat) (d : Bool) (c : List Nat)
    (l : List (Nat × TaskOutcome)) (x : Nat) (hx : x ∈ c) :
    x ∈ (drainLoop bs d c l).1 := by
  induction l generalizing c with
  | nil => simpa [drainLoop]
  | cons t rest ih =>
    obtain ⟨addr, outcome⟩ := t
    simp only [drainLoop]
    split
    · cases outcome
      · exact ih _ (by simp [hx])
      · exact ih _ hx
      · exact hx
    · exact hx

theorem drainLoop_completed_sub (bs : Nat) (d : Bool) (c : List Nat)
    (l : List (Nat × TaskOutcome)) (x : Nat)
    (hx : x ∈ (drainLoop bs d c l).1) :
    x ∈ c ∨ x ∈ l.map Prod.fst := by
  induction l generalizing c with
  | nil => simp [drainLoop] at hx; exact Or.inl hx
  | cons t rest ih =>
    obtain ⟨addr, outcome⟩ := t
    simp only [drainLoop] at hx
    split at hx
    · cases outcome with
      | success =>
        rcases ih _ hx with h | h
        · rcases List.mem_append.1 h with h' | h'
          · exact Or.inl h'
          · simp at h'; subst h'; simp
        · simp [h]
      | failure =>
        rcases ih _ hx with h | h
        · exact Or.inl h
        · simp [h]
      | panicked => exact Or.inl hx
    · exact Or.inl hx

/-! ## Lemmas about `progress_uploading_chunks` -/

theorem progress_seqFails (bs : Nat) (d : Bool) (s : UpState) :
    (progress_uploading_chunks bs d s).1.seqFails = s.seqFails := rfl

theorem progress_payCalls (bs : Nat) (d : Bool) (s : UpState) :
    (progress_uploading_chunks bs d s).1.payCalls = s.payCalls := rfl

theorem progress_dispatched (bs : Nat) (d : Bool) (s : UpState) :
    (progress_uploading_chunks bs d s).1.dispatched = s.dispatched := rfl

theorem progress_maxInflight (bs : Nat) (d : Bool) (s : UpState) :
    (progress_uploading_chunks bs d s).1.maxInflight = s.maxInflight := rfl

theorem progress_retryPasses (bs : Nat) (d : Bool) (s : UpState) :
    (progress_uploading_chunks bs d s).1.retryPasses = s.retryPasses := rfl

theorem progress_inflight_le (bs : Nat) (d : Bool) (s : UpState) :
    (progress_uploading_chunks bs d s).1.inflight.length ≤ s.inflight.length :=
  drainLoop_length_le bs d s.completed s.inflight

theorem progress_below_of_ok (bs : Nat) (s : UpState)
    (h : (progress_uploading_chunks bs false s).2 = none) :
    (progress_uploading_chunks bs false s).1.inflight.length < bs ∨
      (progress_uploading_chunks bs false s).1.inflight = [] :=
  drainLoop_below_of_ok bs s.completed s.inflight h

theorem progress_completed_mono (bs : Nat) (d : Bool) (s : UpState) (x : Nat)
    (hx : x ∈ s.completed) : x ∈ (progress_uploading_chunks bs d s).1.completed :=
  drainLoop_completed_mono bs d s.completed s.inflight x hx

theorem progress_completed_sub (bs : Nat) (d : Bool) (s : UpState) (x : Nat)
    (hx : x ∈ (progress_uploading_chunks bs d s).1.completed) :
    x ∈ s.completed ∨ x ∈ s.inflight.map Prod.fst :=
  drainLoop_completed_sub bs d s.completed s.inflight x hx

theorem drainLoop_err (bs : Nat) (d : Bool) (c : List Nat)
    (l : List (Nat × TaskOutcome)) (e : BatchErr)
    (h : (drainLoop bs d c l).2.2 = some e) : e = .joinPanic := by
  induction l generalizing c with
  | nil => simp [drainLoop] at h
  | cons t rest ih =>
    obtain ⟨addr, outcome⟩ := t
    by_cases hcond : d = true ∨ bs ≤ rest.length + 1
    · cases outcome <;> simp only [drainLoop, if_pos hcond] at h
      · exact ih _ h
      · exact ih _ h
      · simp at h
        exact h.symm
    · simp only [drainLoop, if_neg hcond] at h
      simp at h

theorem progress_err (bs : Nat) (d : Bool) (s : UpState) (e : BatchErr)
    (h : (progress_uploading_chunks bs d s).2 = some e) : e = .joinPanic :=
  drainLoop_err bs d s.completed s.inflight e h

/-! ## Lemmas about `pushTasks` -/

theorem pushTasks_fields (bs : Nat) (ts : List (Nat × TaskOutcome)) (s : UpState) :
    (pushTasks bs s ts).1.seqFails = s.seqFails ∧
    (pushTasks bs s ts).1.payCalls = s.payCalls ∧
    (pushTasks bs s ts).1.dispatched = s.dispatched ∧
    (pushTasks bs s ts).1.retryPasses = s.retryPasses := by
  induction ts generalizing s with
  | nil => exact ⟨rfl, rfl, rfl, rfl⟩
  | cons t rest ih =>
    simp only [pushTasks]
    rcases hp : (progress_uploading_chunks bs false s).2 with _ | e
    · simp only [hp]
      exact ih _
    · simp only [hp]
      exact ⟨rfl, rfl, rfl, rfl⟩

theorem pushTasks_err (bs : Nat) (ts : List (Nat × TaskOutcome)) (s : UpState)
    (e : BatchErr) (h : (pushTasks bs s ts).2 = some e) : e = .joinPanic := by
  induction ts generalizing s with
  | nil => simp [pushTasks] at h
  | cons t rest ih =>
    rcases hp : (progress_uploading_chunks bs false s).2 with _ | e2
    · simp only [pushTasks, hp] at h
      exact ih _ h
    · simp only [pushTasks, hp] at h
      simp at h
      cases h
      exact progress_err bs false s _ hp

theorem pushTasks_inv (bs : Nat) (hbs : 1 ≤ bs) (ts : List (Nat × TaskOutcome))
    (s : UpState) (h1 : s.inflight.length ≤ bs) (h2 : s.maxInflight ≤ bs) :
    (pushTasks bs s ts).1.inflight.length ≤ bs ∧
    (pushTasks bs s ts).1.maxInflight ≤ bs := by
  induction ts generalizing s with
  | nil => exact ⟨h1, h2⟩
  | cons t rest ih =>
    rcases hp : (progress_uploading_chunks bs false s).2 with _ | e
    · simp only [pushTasks, hp]
      have hlt : (progress_uploading_chunks bs false s).1.inflight.length < bs := by
        rcases progress_below_of_ok bs s hp with h | h
        · exact h
        · rw [h]; simpa using hbs
      apply ih
      · simpa using hlt
      · have hm : (progress_uploading_chunks bs false s).1.maxInflight ≤ bs := h2
        simpa using max_le hm hlt
    · simp only [pushTasks, hp]
      exact ⟨le_trans (progress_inflight_le bs false s) h1, h2⟩

/-! ## Lemmas about `handle_chunk_batch` -/

theorem handle_fields (env : Env) (bs : Nat) (s : UpState) (b : List Nat) :
    (handle_chunk_batch env bs s b).1.seqFails = s.seqFails ∧
    (handle_chunk_batch env bs s b).1.retryPasses = s.retryPasses ∧
    ((handle_chunk_batch env bs s b).1.payCalls = s.payCalls ++ [b] ∨
      (handle_chunk_batch env bs s b).1.payCalls = s.payCalls) := by
  rcases hp : (progress_uploading_chunks bs false s).2 with _ | e
  · rcases hpay :
        env.pay (progress_uploading_chunks bs false s).1.payCalls.length with
      _ | _ | _ | ⟨storage_cost, royalties_fees, new_balance, skipped⟩ <;>
      simp only [handle_chunk_batch, hp, hpay]
    · exact ⟨rfl, rfl, Or.inl rfl⟩
    · exact ⟨rfl, rfl, Or.inl rfl⟩
    · exact ⟨rfl, rfl, Or.inl rfl⟩
    · split_ifs with hc hr
      · exact ⟨(pushTasks_fields _ _ _).1, (pushTasks_fields _ _ _).2.2.2,
          Or.inl (pushTasks_fields _ _ _).2.1⟩
      · exact ⟨rfl, rfl, Or.inl rfl⟩
      · exact ⟨rfl, rfl, Or.inl rfl⟩
  · simp only [handle_chunk_batch, hp]
    exact ⟨rfl, rfl, Or.inr rfl⟩

theorem handle_payCalls_of_drain_ok (env : Env) (bs : Nat) (s : UpState)
    (b : List Nat) (h : (progress_uploading_chunks bs false s).2 = none) :
    (handle_chunk_batch env bs s b).1.payCalls = s.payCalls ++ [b] := by
  rcases hpay :
      env.pay (progress_uploading_chunks bs false s).1.payCalls.length with
    _ | _ | _ | ⟨storage_cost, royalties_fees, new_balance, skipped⟩ <;>
    simp only [handle_chunk_batch, h, hpay]
  · rfl
  · rfl
  · rfl
  · split_ifs with hc hr
    · exact (pushTasks_fields _ _ _).2.1
    · rfl
    · rfl

theorem handle_inv (env : Env) (bs : Nat) (hbs : 1 ≤ bs) (s : UpState)
    (b : List Nat) (h1 : s.inflight.length ≤ bs) (h2 : s.maxInflight ≤ bs) :
    (handle_chunk_batch env bs s b).1.inflight.length ≤ bs ∧
    (handle_chunk_batch env bs s b).1.maxInflight ≤ bs := by
  have hpl : (progress_uploading_chunks bs false s).1.inflight.length ≤ bs :=
    le_trans (progress_inflight_le bs false s) h1
  have hpm : (progress_uploading_chunks bs false s).1.maxInflight ≤ bs := h2
  rcases hp : (progress_uploading_chunks bs false s).2 with _ | e
  · rcases hpay :
        env.pay (progress_uploading_chunks bs false s).1.payCalls.length with
      _ | _ | _ | ⟨storage_cost, royalties_fees, new_balance, skipped⟩ <;>
      simp only [handle_chunk_batch, hp, hpay]
    · exact ⟨hpl, hpm⟩
    · exact ⟨hpl, hpm⟩
    · exact ⟨hpl, hpm⟩
    · split_ifs with hc hr
      · exact pushTasks_inv bs hbs _ _ hpl hpm
      · exact ⟨hpl, hpm⟩
      · exact ⟨hpl, hpm⟩
  · simp only [handle_chunk_batch, hp]
    exact ⟨hpl, hpm⟩

theorem handle_soft (env : Env) (bs : Nat) (s : UpState) (b : List Nat)
    (hinf : s.inflight = [])
    (hpay : env.pay s.payCalls.length = .couldNotVerifyTransfer) :
    handle_chunk_batch env bs s b =
      ({ s with payCalls := s.payCalls ++ [b] }, some .payCouldNotVerify) := by
  obtain ⟨c, infl, sf, tc, tr, fb, te, pc, dp, mi, rp⟩ := s
  simp only at hinf
  subst hinf
  simp only at hpay
  simp [handle_chunk_batch, progress_uploading_chunks, drainLoop, hpay]

theorem handle_soft_completed (env : Env) (bs : Nat) (s s' : UpState)
    (b : List Nat)
    (h : handle_chunk_batch env bs s b = (s', some .payCouldNotVerify)) :
    ∀ c ∈ s'.completed, c ∈ s.completed ∨ c ∈ s.inflight.map Prod.fst := by
  intro c hc
  rcases hp : (progress_uploading_chunks bs false s).2 with _ | e
  · rcases hpay :
        env.pay (progress_uploading_chunks bs false s).1.payCalls.length with
      _ | _ | _ | ⟨storage_cost, royalties_fees, new_balance, skipped⟩ <;>
      simp only [handle_chunk_batch, hp, hpay] at h
    · simp at h
    · injection h with h1 h2
      subst h1
      exact progress_completed_sub bs false s c hc
    · simp at h
    · split_ifs at h with hcost hroy
      · have hje := pushTasks_err bs _ _ _ (congrArg Prod.snd h)
        simp at hje
      · simp at h
      · simp at h
  · simp only [handle_chunk_batch, hp] at h
    injection h with h1 h2
    subst h1
    exact progress_completed_sub bs false s c hc

/-! ## Lemmas about the initial pass -/

theorem initialPass_seqFails_mono (env : Env) (bs ms : Nat)
    (batches : List (List Nat)) (s : UpState) :
    s.seqFails ≤ (initialPass env bs ms s batches).1.seqFails := by
  induction batches generalizing s with
  | nil => exact le_refl _
  | cons b rest ih =>
    by_cases habort : ms ≤ s.seqFails
    · simp [initialPass, habort]
    · rcases he : (handle_chunk_batch env bs s b).2 with _ | e
      · simp only [initialPass, if_neg habort, he]
        rw [← (handle_fields env bs s b).1]
        exact ih _
      · cases e <;> simp only [initialPass, if_neg habort, he]
        · exact le_of_eq (handle_fields env bs s b).1.symm
        · refine le_trans ?_ (ih _)
          show s.seqFails ≤ (handle_chunk_batch env bs s b).1.seqFails + 1
          rw [(handle_fields env bs s b).1]
          exact Nat.le_succ _
        · exact le_of_eq (handle_fields env bs s b).1.symm
        · exact le_of_eq (handle_fields env bs s b).1.symm
        · exact le_of_eq (handle_fields env bs s b).1.symm
        · exact le_of_eq (handle_fields env bs s b).1.symm

theorem initialPass_retryPasses (env : Env) (bs ms : Nat)
    (batches : List (List Nat)) (s : UpState) :
    (initialPass env bs ms s batches).1.retryPasses = s.retryPasses := by
  induction batches generalizing s with
  | nil => rfl
  | cons b rest ih =>
    by_cases habort : ms ≤ s.seqFails
    · simp [initialPass, habort]
    · rcases he : (handle_chunk_batch env bs s b).2 with _ | e
      · simp only [initialPass, if_neg habort, he]
        rw [ih]
        exact (handle_fields env bs s b).2.1
      · cases e <;> simp only [initialPass, if_neg habort, he]
        · exact (handle_fields env bs s b).2.1
        · rw [ih]
          exact (handle_fields env bs s b).2.1
        · exact (handle_fields env bs s b).2.1
        · exact (handle_fields env bs s b).2.1
        · exact (handle_fields env bs s b).2.1
        · exact (handle_fields env bs s b).2.1

theorem initialPass_payCalls (env : Env) (bs ms : Nat)
    (batches : List (List Nat)) (s : UpState) :
    ∃ sub, sub.Sublist batches ∧
      (initialPass env bs ms s batches).1.payCalls = s.payCalls ++ sub := by
  induction batches generalizing s with
  | nil => exact ⟨[], List.Sublist.refl _, by simp [initialPass]⟩
  | cons b rest ih =>
    by_cases habort : ms ≤ s.seqFails
    · exact ⟨[], List.nil_sublist _, by simp [initialPass, habort]⟩
    · rcases he : (handle_chunk_batch env bs s b).2 with _ | e
      · obtain ⟨sub, hsub, hpc⟩ := ih (handle_chunk_batch env bs s b).1
        rcases (handle_fields env bs s b).2.2 with hb | hb
        · refine ⟨b :: sub, List.Sublist.cons₂ _ hsub, ?_⟩
          simp only [initialPass, if_neg habort, he]
          rw [hpc, hb]
          simp
        · refine ⟨sub, List.Sublist.cons _ hsub, ?_⟩
          simp only [initialPass, if_neg habort, he]
          rw [hpc, hb]
      · have hterm : ∀ s' : UpState,
            (initialPass env bs ms s (b :: rest)).1 = s' →
            s'.payCalls = (handle_chunk_batch env bs s b).1.payCalls →
            ∃ sub, sub.Sublist (b :: rest) ∧
              (initialPass env bs ms s (b :: rest)).1.payCalls =
                s.payCalls ++ sub := by
          intro s' hs' hpc
          rcases (handle_fields env bs s b).2.2 with hb | hb
          · exact ⟨[b], (List.nil_sublist rest).cons₂ _,
              by rw [hs', hpc, hb]⟩
          · exact ⟨[], List.nil_sublist _, by rw [hs', hpc, hb]; simp⟩
        cases e
        · exact hterm _ (by simp only [initialPass, if_neg habort, he]) rfl
        · obtain ⟨sub, hsub, hpc⟩ :=
            ih { (handle_chunk_batch env bs s b).1 with
                  seqFails := (handle_chunk_batch env bs s b).1.seqFails + 1 }
          rcases (handle_fields env bs s b).2.2 with hb | hb
          · refine ⟨b :: sub, List.Sublist.cons₂ _ hsub, ?_⟩
            simp only [initialPass, if_neg habort, he]
            rw [hpc]
            show (handle_chunk_batch env bs s b).1.payCalls ++ sub = _
            rw [hb]
            simp
          · refine ⟨sub, List.Sublist.cons _ hsub, ?_⟩
            simp only [initialPass, if_neg habort, he]
            rw [hpc]
            show (handle_chunk_batch env bs s b).1.payCalls ++ sub = _
            rw [hb]
        · exact hterm _ (by simp only [initialPass, if_neg habort, he]) rfl
        · exact hterm _ (by simp only [initialPass, if_neg habort, he]) rfl
        · exact hterm _ (by simp only [initialPass, if_neg habort, he]) rfl
        · exact hterm _ (by simp only [initialPass, if_neg habort, he]) rfl

theorem initialPass_inv (env : Env) (bs ms : Nat) (hbs : 1 ≤ bs)
    (batches : List (List Nat)) (s : UpState)
    (h1 : s.inflight.length ≤ bs) (h2 : s.maxInflight ≤ bs) :
    (initialPass env bs ms s batches).1.inflight.length ≤ bs ∧
    (initialPass env bs ms s batches).1.maxInflight ≤ bs := by
  induction batches generalizing s with
  | nil => exact ⟨h1, h2⟩
  | cons b rest ih =>
    by_cases habort : ms ≤ s.seqFails
    · simp only [initialPass, if_pos habort]
      exact ⟨h1, h2⟩
    · have hh := handle_inv env bs hbs s b h1 h2
      rcases he : (handle_chunk_batch env bs s b).2 with _ | e
      · simp only [initialPass, if_neg habort, he]
        exact ih _ hh.1 hh.2
      · cases e <;> simp only [initialPass, if_neg habort, he]
        · exact hh
        · exact ih _ hh.1 hh.2
        · exact hh
        · exact hh
        · exact hh
        · exact hh

/-! ## Lemmas about the retry passes -/

theorem retryPassBatches_fields (env : Env) (bs : Nat)
    (batches : List (List Nat)) (s : UpState) :
    (retryPassBatches env bs s batches).1.retryPasses = s.retryPasses ∧
    (retryPassBatches env bs s batches).1.seqFails = s.seqFails := by
  induction batches generalizing s with
  | nil => exact ⟨rfl, rfl⟩
  | cons b rest ih =>
    rcases he : (handle_chunk_batch env bs s b).2 with _ | e
    · simp only [retryPassBatches, he]
      obtain ⟨i1, i2⟩ := ih (handle_chunk_batch env bs s b).1
      exact ⟨i1.trans (handle_fields env bs s b).2.1,
        i2.trans (handle_fields env bs s b).1⟩
    · simp only [retryPassBatches, he]
      exact ⟨(handle_fields env bs s b).2.1, (handle_fields env bs s b).1⟩

theorem retryPassBatches_inv (env : Env) (bs : Nat) (hbs : 1 ≤ bs)
    (batches : List (List Nat)) (s : UpState)
    (h1 : s.inflight.length ≤ bs) (h2 : s.maxInflight ≤ bs) :
    (retryPassBatches env bs s batches).1.inflight.length ≤ bs ∧
    (retryPassBatches env bs s batches).1.maxInflight ≤ bs := by
  induction batches generalizing s with
  | nil => exact ⟨h1, h2⟩
  | cons b rest ih =>
    have hh := handle_inv env bs hbs s b h1 h2
    rcases he : (handle_chunk_batch env bs s b).2 with _ | e
    · simp only [retryPassBatches, he]
      exact ih _ hh.1 hh.2
    · simp only [retryPassBatches, he]
      exact hh

theorem retryLoop_inv (env : Env) (chunks : List Nat) (bs : Nat) (hbs : 1 ≤ bs)
    (rem : Nat) (s : UpState)
    (h1 : s.inflight.length ≤ bs) (h2 : s.maxInflight ≤ bs) :
    (retryLoop env chunks bs s rem).1.inflight.length ≤ bs ∧
    (retryLoop env chunks bs s rem).1.maxInflight ≤ bs := by
  induction rem generalizing s with
  | zero => exact ⟨h1, h2⟩
  | succ rem ih =>
    by_cases hfail : pendingOf chunks s = []
    · simp only [retryLoop, if_pos hfail]
      exact ⟨h1, h2⟩
    · simp only [retryLoop, if_neg hfail]
      have hrb := retryPassBatches_inv env bs hbs
        (chunksOf bs (pendingOf chunks s))
        { s with retryPasses := s.retryPasses + 1 } h1 h2
      rcases hr : (retryPassBatches env bs
          { s with retryPasses := s.retryPasses + 1 }
          (chunksOf bs (pendingOf chunks s))).2 with _ | e
      · simp only [hr]
        rcases hd : (progress_uploading_chunks bs true
            (retryPassBatches env bs { s with retryPasses := s.retryPasses + 1 }
              (chunksOf bs (pendingOf chunks s))).1).2 with _ | e2
        · simp only [hd]
          exact ih _ (le_trans (progress_inflight_le _ _ _) hrb.1) hrb.2
        · simp only [hd]
          exact ⟨le_trans (progress_inflight_le _ _ _) hrb.1, hrb.2⟩
      · simp only [hr]
        exact hrb

theorem retryLoop_passes (env : Env) (chunks : List Nat) (bs : Nat)
    (rem : Nat) (s : UpState) :
    (retryLoop env chunks bs s rem).1.retryPasses ≤ s.retryPasses + rem ∧
    ((retryLoop env chunks bs s rem).2 = none →
      pendingOf chunks (retryLoop env chunks bs s rem).1 = [] ∨
      (retryLoop env chunks bs s rem).1.retryPasses = s.retryPasses + rem) := by
  induction rem generalizing s with
  | zero => exact ⟨le_refl _, fun _ => Or.inr rfl⟩
  | succ rem ih =>
    by_cases hfail : pendingOf chunks s = []
    · simp only [retryLoop, if_pos hfail]
      exact ⟨Nat.le_add_right _ _, fun _ => Or.inl hfail⟩
    · simp only [retryLoop, if_neg hfail]
      have hrp : (retryPassBatches env bs
          { s with retryPasses := s.retryPasses + 1 }
          (chunksOf bs (pendingOf chunks s))).1.retryPasses =
          s.retryPasses + 1 :=
        (retryPassBatches_fields env bs
          (chunksOf bs (pendingOf chunks s))
          { s with retryPasses := s.retryPasses + 1 }).1
      rcases hr : (retryPassBatches env bs
          { s with retryPasses := s.retryPasses + 1 }
          (chunksOf bs (pendingOf chunks s))).2 with _ | e
      · simp only [hr]
        rcases hd : (progress_uploading_chunks bs true
            (retryPassBatches env bs { s with retryPasses := s.retryPasses + 1 }
              (chunksOf bs (pendingOf chunks s))).1).2 with _ | e2
        · simp only [hd]
          obtain ⟨ihb, ihc⟩ := ih (progress_uploading_chunks bs true
            (retryPassBatches env bs { s with retryPasses := s.retryPasses + 1 }
              (chunksOf bs (pendingOf chunks s))).1).1
          have hpasses : (progress_uploading_chunks bs true
              (retryPassBatches env bs { s with retryPasses := s.retryPasses + 1 }
                (chunksOf bs (pendingOf chunks s))).1).1.retryPasses =
              s.retryPasses + 1 := by
            rw [progress_retryPasses, hrp]
          constructor
          · rw [hpasses] at ihb
            omega
          · intro hnone
            rcases ihc hnone with h | h
            · exact Or.inl h
            · right
              rw [h, hpasses]
              omega
        · simp only [hd]
          constructor
          · rw [progress_retryPasses, hrp]
            omega
          · intro hnone
            simp at hnone
      · simp only [hr]
        constructor
        · rw [hrp]
          omega
        · intro hnone
          simp at hnone

/-! ## Lemmas about `run_scheduler` -/

theorem run_scheduler_inv (env : Env) (chunks : List Nat) (bs mr : Nat)
    (s0 : UpState) (hbs : 1 ≤ bs)
    (h1 : s0.inflight.length ≤ bs) (h2 : s0.maxInflight ≤ bs) :
    (run_scheduler env chunks bs mr s0).1.inflight.length ≤ bs ∧
    (run_scheduler env chunks bs mr s0).1.maxInflight ≤ bs := by
  have hip := initialPass_inv env bs 3 hbs (chunksOf bs chunks) s0 h1 h2
  rcases hi : (initialPass env bs 3 s0 (chunksOf bs chunks)).2 with _ | e
  · simp only [run_scheduler, hi]
    rcases hd : (progress_uploading_chunks bs true
        (initialPass env bs 3 s0 (chunksOf bs chunks)).1).2 with _ | e2
    · simp only [hd]
      exact retryLoop_inv env chunks bs hbs mr _
        (le_trans (progress_inflight_le _ _ _) hip.1) hip.2
    · simp only [hd]
      exact ⟨le_trans (progress_inflight_le _ _ _) hip.1, hip.2⟩
  · simp only [run_scheduler, hi]
    exact hip

theorem run_scheduler_retry (env : Env) (chunks : List Nat) (bs mr : Nat)
    (s0 : UpState) (h0 : s0.retryPasses = 0) :
    (run_scheduler env chunks bs mr s0).1.retryPasses ≤ mr ∧
    ((run_scheduler env chunks bs mr s0).2 = none →
      pendingOf chunks (run_scheduler env chunks bs mr s0).1 = [] ∨
      (run_scheduler env chunks bs mr s0).1.retryPasses = mr) := by
  have hip : (initialPass env bs 3 s0 (chunksOf bs chunks)).1.retryPasses = 0 :=
    (initialPass_retryPasses env bs 3 (chunksOf bs chunks) s0).trans h0
  rcases hi : (initialPass env bs 3 s0 (chunksOf bs chunks)).2 with _ | e
  · simp only [run_scheduler, hi]
    rcases hd : (progress_uploading_chunks bs true
        (initialPass env bs 3 s0 (chunksOf bs chunks)).1).2 with _ | e2
    · simp only [hd]
      have hz : (progress_uploading_chunks bs true
          (initialPass env bs 3 s0 (chunksOf bs chunks)).1).1.retryPasses = 0 := by
        rw [progress_retryPasses, hip]
      obtain ⟨hb, hc⟩ := retryLoop_passes env chunks bs mr
        (progress_uploading_chunks bs true
          (initialPass env bs 3 s0 (chunksOf bs chunks)).1).1
      rw [hz] at hb hc
      exact ⟨by simpa using hb, by simpa using hc⟩
    · simp only [hd]
      constructor
      · rw [progress_retryPasses, hip]
        omega
      · intro hnone
        simp at hnone
  · simp only [run_scheduler, hi]
    constructor
    · rw [hip]
      omega
    · intro hnone
      simp at hnone

/-! ## Lemmas about the manifest reader -/

theorem mem_insertEntry (x a : List Nat × List Char)
    (l : List (List Nat × List Char)) :
    a ∈ insertEntry x l ↔ a = x ∨ a ∈ l := by
  induction l with
  | nil => simp [insertEntry]
  | cons y ys ih =>
    simp only [insertEntry]
    split_ifs with h1 h2
    · subst h1
      simp only [List.mem_cons]
      tauto
    · simp [List.mem_cons]
    · simp only [List.mem_cons, ih]
      tauto

theorem download_files_go_ok_mem (lines : List (List Char)) :
    ∀ (acc entries : List (List Nat × List Char)),
      download_files_go acc lines = .ok entries →
      ∀ p, p ∈ entries ↔ p ∈ acc ∨ ∃ line ∈ lines, parseLine line = some p := by
  induction lines with
  | nil =>
    intro acc entries h p
    simp only [download_files_go] at h
    injection h with h1
    subst h1
    simp
  | cons line rest ih =>
    intro acc entries h p
    rcases hsplit : splitColonSpace line with _ | ⟨a0, _ | ⟨nm0, _ | ⟨c0, tl0⟩⟩⟩
    · simp only [download_files_go, hsplit] at h
      have hparse : parseLine line = none := by simp [parseLine, hsplit]
      rw [ih acc entries h p]
      simp only [List.mem_cons]
      constructor
      · rintro (hacc | ⟨l, hl, hpl⟩)
        · exact Or.inl hacc
        · exact Or.inr ⟨l, Or.inr hl, hpl⟩
      · rintro (hacc | ⟨l, (rfl | hl), hpl⟩)
        · exact Or.inl hacc
        · rw [hparse] at hpl
          simp at hpl
        · exact Or.inr ⟨l, hl, hpl⟩
    · simp only [download_files_go, hsplit] at h
      have hparse : parseLine line = none := by simp [parseLine, hsplit]
      rw [ih acc entries h p]
      simp only [List.mem_cons]
      constructor
      · rintro (hacc | ⟨l, hl, hpl⟩)
        · exact Or.inl hacc
        · exact Or.inr ⟨l, Or.inr hl, hpl⟩
      · rintro (hacc | ⟨l, (rfl | hl), hpl⟩)
        · exact Or.inl hacc
        · rw [hparse] at hpl
          simp at hpl
        · exact Or.inr ⟨l, hl, hpl⟩
    · rcases hdec : hexDecode a0 with _ | bytes
      · simp only [download_files_go, hsplit, hdec] at h
        simp at h
      · by_cases hlen : bytes.length = 32
        · simp only [download_files_go, hsplit, hdec, if_pos hlen] at h
          have hparse : parseLine line = some (bytes, nm0) := by
            simp [parseLine, hsplit, hdec, hlen]
          rw [ih _ entries h p, mem_insertEntry]
          simp only [List.mem_cons]
          constructor
          · rintro ((rfl | hacc) | ⟨l, hl, hpl⟩)
            · exact Or.inr ⟨line, Or.inl rfl, by rw [hparse]⟩
            · tauto
            · exact Or.inr ⟨l, Or.inr hl, hpl⟩
          · rintro (hacc | ⟨l, (rfl | hl), hpl⟩)
            · tauto
            · rw [hparse] at hpl
              injection hpl with hpl
              exact Or.inl (Or.inl hpl.symm)
            · exact Or.inr ⟨l, hl, hpl⟩
        · simp only [download_files_go, hsplit, hdec, if_neg hlen] at h
          simp at h
    · simp only [download_files_go, hsplit] at h
      have hparse : parseLine line = none := by simp [parseLine, hsplit]
      rw [ih acc entries h p]
      simp only [List.mem_cons]
      constructor
      · rintro (hacc | ⟨l, hl, hpl⟩)
        · exact Or.inl hacc
        · exact Or.inr ⟨l, Or.inr hl, hpl⟩
      · rintro (hacc | ⟨l, (rfl | hl), hpl⟩)
        · exact Or.inl hacc
        · rw [hparse] at hpl
          simp at hpl
        · exact Or.inr ⟨l, hl, hpl⟩

/-! ## Soft-failure step lemmas for the initial pass -/

theorem initialPass_soft_step (env : Env) (bs ms : Nat) (s : UpState)
    (b : List Nat) (rest : List (List Nat)) (hinf : s.inflight = [])
    (hpay : env.pay s.payCalls.length = .couldNotVerifyTransfer)
    (hms : s.seqFails < ms) :
    initialPass env bs ms s (b :: rest) =
      initialPass env bs ms
        { s with payCalls := s.payCalls ++ [b], seqFails := s.seqFails + 1 }
        rest := by
  have h := handle_soft env bs s b hinf hpay
  simp only [initialPass, if_neg (Nat.not_le.mpr hms), h]

theorem initialPass_abort (env : Env) (bs ms : Nat) (s : UpState)
    (b : List Nat) (rest : List (List Nat)) (hms : ms ≤ s.seqFails) :
    initialPass env bs ms s (b :: rest) =
      (s, some .tooManySequentialPaymentFails) := by
  simp only [initialPass, if_pos hms]

/-! ## Concrete environments for the counterexamples and witnesses -/

/-- Gateway for the C1 counterexample: the first payment succeeds with
nothing skipped; every later payment succeeds reporting chunk 0 as already
stored; the single worker upload fails. -/
def envC1 : Env :=
  { pay := fun n => match n with
      | 0 => .ok 0 0 9 []
      | _ => .ok 0 0 9 [0]
    task := fun _ => .failure }

/-- Gateway for the C2 counterexample: two CouldNotVerifyTransfer failures,
then a success that skips the batch sole chunk. -/
def envC2 : Env :=
  { pay := fun n => match n with
      | 0 => .couldNotVerifyTransfer
      | 1 => .couldNotVerifyTransfer
      | _ => .ok 0 0 7 [2]
    task := fun _ => .success }

/-- Gateway for the second C2 run: soft, soft, success, then soft again. -/
def envC2b : Env :=
  { pay := fun n => match n with
      | 0 => .couldNotVerifyTransfer
      | 1 => .couldNotVerifyTransfer
      | 2 => .ok 0 0 7 [2]
      | _ => .couldNotVerifyTransfer
    task := fun _ => .success }

/-- Gateway for the C3 counterexample: the initial payment succeeds, the
worker upload fails, and the retry pass payment fails with
CouldNotVerifyTransfer. -/
def envC3 : Env :=
  { pay := fun n => match n with
      | 0 => .ok 0 0 9 []
      | _ => .couldNotVerifyTransfer
    task := fun _ => .failure }

/-- Gateway for the C4 runs: the first three payments fail with
CouldNotVerifyTransfer, the retry-pass payments succeed and report each
retried chunk as already stored. -/
def envC4 : Env :=
  { pay := fun n => match n with
      | 0 => .couldNotVerifyTransfer
      | 1 => .couldNotVerifyTransfer
      | 2 => .couldNotVerifyTransfer
      | 3 => .ok 0 0 9 [0]
      | 4 => .ok 0 0 9 [1]
      | _ => .ok 0 0 9 [2]
    task := fun _ => .success }

/-- A fully successful environment: every payment succeeds with nothing
skipped, every worker succeeds. -/
def envOk : Env :=
  { pay := fun _ => .ok 1 1 9 []
    task := fun _ => .success }

/-- Intermediate state for the C3 witness: one recorded payment call. -/
def stC3 : UpState := { initState 9 with payCalls := [[0]] }

/-- State after the retry batch of the C3 witness submitted its payment. -/
def stC3b : UpState := { initState 9 with payCalls := [[0], [0]] }

/-! ## Claim C1 -/

/-- C1 counterexample: in a run whose only chunk is paid successfully in the
initial pass and whose upload then fails, the retry pass invokes the Payment
Gateway with that Address again: the `pay_for_chunks` trace is `[[0], [0]]`
although the first call for address 0 succeeded, and the run ends
successfully — refuting "each chunk Address at most once on the success
path". -/
theorem c1_counterexample :
    (run_scheduler envC1 [0] 1 3 (initState 9)).1.payCalls = [[0], [0]] ∧
    (run_scheduler envC1 [0] 1 3 (initState 9)).2 = none ∧
    envC1.pay 0 = .ok 0 0 9 [] := by decide

/-- C1 (amended): within a single scheduler pass each Address is submitted to
the Payment Gateway at most once — the pass's pay calls are a sublist of the
batches, which partition the duplicate-free pending set — but
`handle_chunk_batch` always submits its whole batch, so a chunk that is still
Pending at a retry pass is submitted to the Payment Gateway again there even
if its payment already succeeded. -/
theorem c1_pay_per_pass (env : Env) (bs ms : Nat) (chunks : List Nat)
    (s0 : UpState) (a : Nat) (s : UpState) (b : List Nat)
    (hnodup : chunks.Nodup) (hpc : s0.payCalls = [])
    (hdrain : (progress_uploading_chunks bs false s).2 = none) :
    (initialPass env bs ms s0 (chunksOf bs chunks)).1.payCalls.countP
        (fun c => decide (a ∈ c)) ≤ 1 ∧
    (handle_chunk_batch env bs s b).1.payCalls = s.payCalls ++ [b] := by
  constructor
  · obtain ⟨sub, hsub, hpay⟩ :=
      initialPass_payCalls env bs ms (chunksOf bs chunks) s0
    rw [hpay, hpc]
    simp only [List.nil_append]
    refine le_trans (hsub.countP_le _) ?_
    by_cases hbs : bs = 0
    · subst hbs
      simp [chunksOf]
    · exact countP_mem_le_one a _ (by rw [chunksOf_flatten bs hbs]; exact hnodup)
  · exact handle_payCalls_of_drain_ok env bs s b hdrain

/-- C1 witness: the amended statement evaluated on concrete runs. -/
theorem c1_witness :
    (initialPass envOk 2 3 (initState 9) (chunksOf 2 [0, 1, 2])).1.payCalls.countP
        (fun c => decide (1 ∈ c)) ≤ 1 ∧
    (handle_chunk_batch envC1 1 (initState 9) [0]).1.payCalls =
      (initState 9).payCalls ++ [[0]] :=
  ⟨(c1_pay_per_pass envOk 2 3 [0, 1, 2] (initState 9) 1 (initState 9) [0]
      (by decide) rfl (by decide)).1,
    (c1_pay_per_pass envC1 1 3 [0] (initState 9) 0 (initState 9) [0]
      (by decide) rfl (by decide)).2⟩

/-! ## Claim C2 -/

/-- C2 counterexample: after two CouldNotVerifyTransfer failures followed by
a successful batch, `sequential_payment_fails` is 2, not 0, on a run that
ends without error; and in a longer run one single later soft failure (not
three) already aborts the next batch with the tooManySequentialPaymentFails
error — refuting "the counter always equals the number of consecutive soft
payment failures ending at the current batch". -/
theorem c2_counterexample :
    (run_scheduler envC2 [0, 1, 2] 1 0 (initState 7)).1.seqFails = 2 ∧
    (run_scheduler envC2 [0, 1, 2] 1 0 (initState 7)).2 = none ∧
    (run_scheduler envC2b [0, 1, 2, 3, 4] 1 0 (initState 7)).2 =
      some .tooManySequentialPaymentFails := by decide

/-- C2 (amended): `sequential_payment_fails` is never reset:
`handle_chunk_batch` leaves it unchanged (in particular after a successful
payment), the initial pass only ever increments it, and a retry pass leaves
it unchanged, so the counter accumulates all CouldNotVerifyTransfer payment
failures of the initial pass rather than measuring the current consecutive
run. -/
theorem c2_no_reset (env : Env) (bs ms : Nat) (batches : List (List Nat))
    (s : UpState) (b : List Nat) :
    (handle_chunk_batch env bs s b).1.seqFails = s.seqFails ∧
    s.seqFails ≤ (initialPass env bs ms s batches).1.seqFails ∧
    (retryPassBatches env bs s batches).1.seqFails = s.seqFails :=
  ⟨(handle_fields env bs s b).1,
    initialPass_seqFails_mono env bs ms batches s,
    (retryPassBatches_fields env bs batches s).2⟩

/-! ## Claim C3 -/

/-- C3 counterexample: a CouldNotVerifyTransfer payment failure in a retry
pass is fatal: the run aborts with that error instead of incrementing
`sequential_payment_fails` (which stays 0) and continuing — refuting "in
every scheduler pass ... is soft". -/
theorem c3_counterexample :
    (run_scheduler envC3 [0] 1 3 (initState 9)).2 =
      some (.retryPass .payCouldNotVerify) ∧
    (run_scheduler envC3 [0] 1 3 (initState 9)).1.seqFails = 0 := by decide

/-- C3 (amended): CouldNotVerifyTransfer is soft only in the initial pass
over batches: there it increments `sequential_payment_fails`, marks none of
the batch's own chunks Completed (anything newly completed was already in
flight), and continues with the next batch; in a retry pass the same payment
failure aborts immediately. -/
theorem c3_soft_only_initial (env : Env) (bs ms : Nat) (s sx : UpState)
    (b : List Nat) (rest : List (List Nat))
    (h : handle_chunk_batch env bs s b = (sx, some .payCouldNotVerify))
    (hms : s.seqFails < ms) :
    initialPass env bs ms s (b :: rest) =
      initialPass env bs ms { sx with seqFails := sx.seqFails + 1 } rest ∧
    retryPassBatches env bs s (b :: rest) = (sx, some .payCouldNotVerify) ∧
    (∀ c ∈ sx.completed, c ∈ s.completed ∨ c ∈ s.inflight.map Prod.fst) := by
  refine ⟨?_, ?_, handle_soft_completed env bs s sx b h⟩
  · simp only [initialPass, if_neg (Nat.not_le.mpr hms), h]
  · simp only [retryPassBatches, h]

/-- C3 witness: the amended statement on a concrete soft-failing batch. -/
theorem c3_witness :
    initialPass envC3 1 3 stC3 [[0]] =
      initialPass envC3 1 3 { stC3b with seqFails := stC3b.seqFails + 1 } [] ∧
    retryPassBatches envC3 1 stC3 [[0]] =
      (stC3b, some .payCouldNotVerify) := by
  have h := c3_soft_only_initial envC3 1 3 stC3 stC3b [0] [] (by decide) (by decide)
  exact ⟨h.1, h.2.1⟩

/-! ## Claim C4 -/

/-- C4 counterexample: with exactly three batches, all of whose payments fail
with CouldNotVerifyTransfer, the run does NOT abort: the counter reaches 3
but there is no fourth batch to trigger the check, the retry pass succeeds,
and the run returns success — refuting "the upload aborts ... after the third
batch's payment fails". -/
theorem c4_counterexample :
    (run_scheduler envC4 [0, 1, 2] 1 3 (initState 9)).2 = none ∧
    (run_scheduler envC4 [0, 1, 2] 1 3 (initState 9)).1.seqFails = 3 ∧
    envC4.pay 0 = .couldNotVerifyTransfer ∧
    envC4.pay 1 = .couldNotVerifyTransfer ∧
    envC4.pay 2 = .couldNotVerifyTransfer := by decide

/-- C4 (amended): when the first three batch payments fail with
CouldNotVerifyTransfer AND a fourth batch remains, the run aborts with the
"too many sequential payment failures" error before paying for that fourth
batch: exactly three pay calls were made and no Upload Worker was dispatched.
(With no fourth batch the check never fires; see the counterexample.) -/
theorem c4_abort_needs_next_batch (env : Env) (bs : Nat) (chunks : List Nat)
    (mr : Nat) (s0 : UpState) (b1 b2 b3 b4 : List Nat) (rest : List (List Nat))
    (hbatches : chunksOf bs chunks = b1 :: b2 :: b3 :: b4 :: rest)
    (hinfl : s0.inflight = []) (hsf : s0.seqFails = 0) (hpc : s0.payCalls = [])
    (h0 : env.pay 0 = .couldNotVerifyTransfer)
    (h1 : env.pay 1 = .couldNotVerifyTransfer)
    (h2 : env.pay 2 = .couldNotVerifyTransfer) :
    (run_scheduler env chunks bs mr s0).2 =
      some .tooManySequentialPaymentFails ∧
    (run_scheduler env chunks bs mr s0).1.payCalls = [b1, b2, b3] ∧
    (run_scheduler env chunks bs mr s0).1.seqFails = 3 ∧
    (run_scheduler env chunks bs mr s0).1.dispatched = s0.dispatched := by
  have hrun : initialPass env bs 3 s0 (chunksOf bs chunks) =
      ({ s0 with
          payCalls := s0.payCalls ++ [b1] ++ [b2] ++ [b3]
          seqFails := s0.seqFails + 1 + 1 + 1 },
        some .tooManySequentialPaymentFails) := by
    rw [hbatches]
    rw [initialPass_soft_step env bs 3 s0 b1 _ hinfl
      (by rw [hpc]; exact h0) (by omega)]
    rw [initialPass_soft_step env bs 3
      { s0 with payCalls := s0.payCalls ++ [b1], seqFails := s0.seqFails + 1 }
      b2 _ hinfl
      (by show env.pay (s0.payCalls ++ [b1]).length = PayRes.couldNotVerifyTransfer
          rw [hpc]; exact h1)
      (by show s0.seqFails + 1 < 3; omega)]
    rw [initialPass_soft_step env bs 3
      { s0 with payCalls := s0.payCalls ++ [b1] ++ [b2],
                seqFails := s0.seqFails + 1 + 1 }
      b3 _ hinfl
      (by show env.pay (s0.payCalls ++ [b1] ++ [b2]).length = PayRes.couldNotVerifyTransfer
          rw [hpc]; exact h2)
      (by show s0.seqFails + 1 + 1 < 3; omega)]
    rw [initialPass_abort env bs 3
      { s0 with payCalls := s0.payCalls ++ [b1] ++ [b2] ++ [b3],
                seqFails := s0.seqFails + 1 + 1 + 1 }
      b4 rest (by show 3 ≤ s0.seqFails + 1 + 1 + 1; omega)]
  have hfull : run_scheduler env chunks bs mr s0 =
      ({ s0 with
          payCalls := s0.payCalls ++ [b1] ++ [b2] ++ [b3]
          seqFails := s0.seqFails + 1 + 1 + 1 },
        some .tooManySequentialPaymentFails) := by
    simp only [run_scheduler, hrun]
  rw [hfull]
  refine ⟨rfl, ?_, ?_, rfl⟩
  · show s0.payCalls ++ [b1] ++ [b2] ++ [b3] = [b1, b2, b3]
    rw [hpc]
    rfl
  · show s0.seqFails + 1 + 1 + 1 = 3
    omega

/-- C4 witness: the amended statement on a four-batch run. -/
theorem c4_witness :
    (run_scheduler envC4 [0, 1, 2, 3] 1 3 (initState 9)).2 =
      some .tooManySequentialPaymentFails ∧
    (run_scheduler envC4 [0, 1, 2, 3] 1 3 (initState 9)).1.payCalls =
      [[0], [1], [2]] ∧
    (run_scheduler envC4 [0, 1, 2, 3] 1 3 (initState 9)).1.seqFails = 3 ∧
    (run_scheduler envC4 [0, 1, 2, 3] 1 3 (initState 9)).1.dispatched =
      (initState 9).dispatched :=
  c4_abort_needs_next_batch envC4 1 [0, 1, 2, 3] 3 (initState 9)
    [0] [1] [2] [3] [] (by decide) rfl rfl rfl rfl rfl rfl

/-! ## Claim C5 -/

/-- C5: backpressure — for every environment, every chunk set and every
`batch_size ≥ 1`, across the whole scheduler run started from a fresh state
the `uploading_chunks` window never holds more than `batch_size` tasks: its
recorded peak size (`maxInflight`, updated at every push; drains only shrink
the window) stays at most `batch_size`, as does the final window size. -/
theorem c5_backpressure (env : Env) (chunks : List Nat) (bs mr bal : Nat)
    (hbs : 1 ≤ bs) :
    (run_scheduler env chunks bs mr (initState bal)).1.maxInflight ≤ bs ∧
    (run_scheduler env chunks bs mr (initState bal)).1.inflight.length ≤ bs := by
  have h := run_scheduler_inv env chunks bs mr (initState bal) hbs
    (by simp [initState]) (by simp [initState])
  exact ⟨h.2, h.1⟩

/-- C5 witness: the backpressure bound on a concrete five-chunk run with
batch size 2. -/
theorem c5_witness :
    (run_scheduler envOk [0, 1, 2, 3, 4] 2 3 (initState 9)).1.maxInflight ≤ 2 ∧
    (run_scheduler envOk [0, 1, 2, 3, 4] 2 3 (initState 9)).1.inflight.length ≤ 2 :=
  c5_backpressure envOk [0, 1, 2, 3, 4] 2 3 9 (by decide)

/-! ## Claim C6 -/

/-- C6: on an upload attempt whose pending set is empty (all chunks believed
Completed), the Verifier's answer decides the run: if it reports no failed
chunks, `upload_files` returns the alreadyVerified success outcome with a
state showing no Payment Gateway call and no dispatched worker; otherwise
exactly the failed subset is fed to the Batch Scheduler (the verified rest
being marked Completed first). -/
theorem c6_resume_verifier (env : Env) (balance : Nat)
    (priorChunks failed : List Nat) (bs mr : Nat) (hbal : balance ≠ 0) :
    (upload_files env balance [] priorChunks [] bs mr =
        (.alreadyVerified, initState balance, none) ∧
      (initState balance).payCalls = [] ∧
      (initState balance).dispatched = []) ∧
    (failed ≠ [] →
      upload_files env balance [] priorChunks failed bs mr =
        (.ran failed,
          run_scheduler env failed bs mr
            { initState balance with
              completed :=
                priorChunks.filter (fun c => !(failed.contains c)) })) := by
  constructor
  · exact ⟨by simp [upload_files, hbal], rfl, rfl⟩
  · intro hne
    simp [upload_files, hbal, hne]

/-- C6 witness: the two branches on concrete inputs. -/
theorem c6_witness :
    upload_files envOk 9 [] [0] [] 2 3 = (.alreadyVerified, initState 9, none) ∧
    upload_files envOk 9 [] [0] [5] 2 3 =
      (.ran [5],
        run_scheduler envOk [5] 2 3
          { initState 9 with
            completed := [0].filter (fun c => !(([5] : List Nat).contains c)) }) := by
  have h1 := c6_resume_verifier envOk 9 [0] [] 2 3 (by decide)
  have h2 := c6_resume_verifier envOk 9 [0] [5] 2 3 (by decide)
  exact ⟨h1.1.1, h2.2 (by decide)⟩

/-! ## Claim C7 -/

/-- C7: a worker whose chunk-file read fails returns success with its
Address rather than an error; a drained successful worker's address is added
to the Completed set; and a Completed address is excluded from the pending
set, so it is never retried. -/
theorem c7_missing_chunk (putRes : PutChunkResult) (xorname bs : Nat)
    (comp chunks : List Nat) (rest : List (Nat × TaskOutcome)) (s : UpState)
    (a : Nat) (ha : a ∈ s.completed) :
    upload_chunk .error putRes xorname = Except.ok xorname ∧
    xorname ∈ (drainLoop bs true comp ((xorname, TaskOutcome.success) :: rest)).1 ∧
    a ∉ pendingOf chunks s := by
  refine ⟨rfl, ?_, ?_⟩
  · simp only [drainLoop, if_pos (Or.inl rfl)]
    exact drainLoop_completed_mono bs true _ rest xorname (by simp)
  · simp [pendingOf, List.mem_filter, ha]

/-- C7 witness: the missing-file worker and completion exclusion on concrete
values. -/
theorem c7_witness :
    upload_chunk .error .err 7 = Except.ok 7 ∧
    7 ∈ (drainLoop 1 true [] [(7, TaskOutcome.success)]).1 ∧
    7 ∉ pendingOf [7] { initState 9 with completed := [7] } := by
  have h := c7_missing_chunk .err 7 1 [] [7] []
    { initState 9 with completed := [7] } 7 (by decide)
  exact ⟨h.1, h.2.1, h.2.2⟩

/-! ## Claim C8 -/

/-- C8: for every run the number of executed retry passes is at most
`max_retries`, and a run that ends without a fatal error ends either with an
empty pending set or after exactly `max_retries` retry passes (the remaining
pending chunks are then merely reported); every other exit carries a fatal
error. -/
theorem c8_retry_bound (env : Env) (chunks : List Nat) (bs mr bal : Nat) :
    (run_scheduler env chunks bs mr (initState bal)).1.retryPasses ≤ mr ∧
    ((run_scheduler env chunks bs mr (initState bal)).2 = none →
      pendingOf chunks (run_scheduler env chunks bs mr (initState bal)).1 = [] ∨
      (run_scheduler env chunks bs mr (initState bal)).1.retryPasses = mr) :=
  run_scheduler_retry env chunks bs mr (initState bal) rfl

/-- C8 witness: the bound and the empty-pending exit on a concrete successful
run. -/
theorem c8_witness :
    (run_scheduler envOk [0, 1, 2, 3, 4] 2 3 (initState 9)).1.retryPasses ≤ 3 ∧
    pendingOf [0, 1, 2, 3, 4]
      (run_scheduler envOk [0, 1, 2, 3, 4] 2 3 (initState 9)).1 = [] := by
  have h := c8_retry_bound envOk [0, 1, 2, 3, 4] 2 3 9
  refine ⟨h.1, ?_⟩
  rcases h.2 (by decide) with h2 | h2
  · exact h2
  · exact absurd h2 (by decide)

/-! ## Claims C9 and C10: concrete manifest lines -/

/-- A 64-character all-zero hex address. -/
def zeros64 : List Char := List.replicate 64 '0'

/-- The 32 zero bytes that `zeros64` decodes to. -/
def zeros32 : List Nat := List.replicate 32 0

/-- Manifest line `"<64 zeros>: f1"`. -/
def lineF1 : List Char := zeros64 ++ [':', ' ', 'f', '1']

/-- Manifest line `"<64 zeros>: f2"`. -/
def lineF2 : List Char := zeros64 ++ [':', ' ', 'f', '2']

/-- Manifest line `"abc: f"`: the address part consists of hex characters
only but has odd length. -/
def lineOdd : List Char := ['a', 'b', 'c', ':', ' ', 'f']

/-! ## Claim C9 -/

/-- C9 counterexample: two well-formed manifest lines carrying the same
Address with different filenames produce TWO entries, both of which are
downloaded — not a single last-line-wins entry. -/
theorem c9_counterexample :
    download_files [lineF1, lineF2] =
      .ok [(zeros32, ['f', '1']), (zeros32, ['f', '2'])] := by decide

/-- C9 (amended): the reader produces the set of parsed (Address, filename)
pairs: whenever the read succeeds, an entry is downloaded iff some manifest
line parses to it.  Duplicate identical lines collapse into one entry, but an
Address appearing on two lines with different filenames yields two entries;
no occurrence is resolved in favour of the last line. -/
theorem c9_reader_set_semantics (lines : List (List Char))
    (entries : List (List Nat × List Char))
    (h : download_files lines = .ok entries) (p : List Nat × List Char) :
    p ∈ entries ↔ ∃ line ∈ lines, parseLine line = some p := by
  have hmem := download_files_go_ok_mem lines [] entries h p
  simpa using hmem

/-- C9 witness: both duplicate-address entries of the two-line manifest are
downloaded. -/
theorem c9_witness :
    (zeros32, ['f', '2']) ∈ [(zeros32, ['f', '1']), (zeros32, ['f', '2'])] ∧
    (zeros32, ['f', '1']) ∈ [(zeros32, ['f', '1']), (zeros32, ['f', '2'])] := by
  constructor
  · exact (c9_reader_set_semantics [lineF1, lineF2]
        [(zeros32, ['f', '1']), (zeros32, ['f', '2'])] (by decide)
        (zeros32, ['f', '2'])).mpr ⟨lineF2, by simp, by decide⟩
  · exact (c9_reader_set_semantics [lineF1, lineF2]
        [(zeros32, ['f', '1']), (zeros32, ['f', '2'])] (by decide)
        (zeros32, ['f', '1'])).mpr ⟨lineF1, by simp, by decide⟩

/-! ## Claim C10 -/

/-- C10 counterexample: the line "abc: f" splits into exactly two parts and
its address part contains only hex characters, yet the read returns the
error (it neither panics nor skips): the error branch is also reachable for
odd-length hex, a shape outside the claim's enumeration. -/
theorem c10_counterexample :
    download_files [lineOdd] = .hexError ∧
    splitColonSpace lineOdd = [['a', 'b', 'c'], ['f']] ∧
    (∀ c ∈ ['a', 'b', 'c'], hexVal c ≠ none) ∧
    hexDecode ['a', 'b', 'c'] = none := by decide

/-- C10 (amended): branch behaviour of the reader on a single manifest line:
a line that does not split into exactly two parts around ": " is skipped;
with exactly two parts, a hex-decode failure of the address part (a non-hex
character or an odd number of characters) makes the whole read return the
error; a decode to a byte length other than 32 panics on the `expect`; a
decode to exactly 32 bytes yields that entry. -/
theorem c10_reader_branches (line : List Char) :
    ((splitColonSpace line).length ≠ 2 → download_files [line] = .ok []) ∧
    (∀ a nm, splitColonSpace line = [a, nm] →
      (hexDecode a = none → download_files [line] = .hexError) ∧
      (∀ bytes, hexDecode a = some bytes → bytes.length ≠ 32 →
        download_files [line] = .panicked) ∧
      (∀ bytes, hexDecode a = some bytes → bytes.length = 32 →
        download_files [line] = .ok [(bytes, nm)])) := by
  constructor
  · intro hne
    rcases hs : splitColonSpace line with _ | ⟨x, _ | ⟨y, _ | ⟨z, tl⟩⟩⟩
    · simp [download_files, download_files_go, hs]
    · simp [download_files, download_files_go, hs]
    · rw [hs] at hne
      simp at hne
    · simp [download_files, download_files_go, hs]
  · intro a nm hs
    refine ⟨?_, ?_, ?_⟩
    · intro hd
      simp [download_files, download_files_go, hs, hd]
    · intro bytes hd hlen
      simp [download_files, download_files_go, hs, hd, hlen]
    · intro bytes hd hlen
      simp [download_files, download_files_go, hs, hd, hlen, insertEntry]

/-- C10 witness: the three branches on concrete lines: a separator-free line
is skipped, a well-formed short address panics, a 64-hex address yields its
entry. -/
theorem c10_witness :
    download_files [['n', 'o', 's', 'e', 'p']] = .ok [] ∧
    download_files [['a', 'b', ':', ' ', 'f']] = .panicked ∧
    download_files [lineF1] = .ok [(zeros32, ['f', '1'])] := by
  refine ⟨?_, ?_, ?_⟩
  · exact (c10_reader_branches ['n', 'o', 's', 'e', 'p']).1 (by decide)
  · exact ((c10_reader_branches ['a', 'b', ':', ' ', 'f']).2 ['a', 'b'] ['f']
      (by decide)).2.1 [171] (by decide) (by decide)
  · exact ((c10_reader_branches lineF1).2 zeros64 ['f', '1']
      (by decide)).2.2 zeros32 (by decide) (by decide)

end SafeFiles
